import Mathlib

/-!
Verification of the regular-expression engine (parser → codegen → evaluator).

The development shallowly embeds the three components of the engine:

* `parse` — the surface-syntax parser (`src/engine/parser.rs`),
* `get_code` / `Generator` — the AST-to-bytecode compiler (`src/engine/codegen.rs`),
* `eval` / `eval_depth` — the recursive backtracking virtual machine
  (`src/engine/evaluator.rs`),

together with the top-level entry point `do_matching` (`src/engine.rs`).

Machine integers (`usize`) are embedded as `Nat` with explicit checked
arithmetic against `2 ^ 64 - 1`; `Vec` buffers are embedded as `List`
with push = append-at-end and pop = take-from-end, preserving element
order; fallible functions return `Except`; the evaluator's potentially
non-terminating recursion is embedded with an explicit fuel parameter
(`none` = fuel exhausted; every theorem about a terminating run holds at
any sufficient fuel).
-/

namespace RegexEngine

/-- Bytecode instruction (`Instruction` in `src/engine.rs`).  The enum
declaration in `engine.rs` lists `Char`, `Match`, `Jump`, `Split`; the
code generator and the evaluator additionally construct and interpret
the `Dot`, `Caret` and `Dollar` variants (`src/engine/codegen.rs`
`gen_dot`/`gen_caret`/`gen_dollar`, `src/engine/evaluator.rs`
`eval_depth`), so the embedding uses the full variant set those two
components agree on. -/
inductive Instruction where
  | Char (c : Char)
  | Dot
  | Caret
  | Dollar
  | Match
  | Jump (addr : Nat)
  | Split (addr1 : Nat) (addr2 : Nat)
deriving Repr, DecidableEq

/-- Abstract syntax tree (`AST` in `src/engine/parser.rs`).  The enum
declaration in `parser.rs` lists `Char`, `Plus`, `Star`, `Question`,
`Or`, `Seq`; the code generator (`gen_expr` in `src/engine/codegen.rs`)
additionally matches on `Dot`, `Caret` and `Dollar` nodes, so the
embedding includes them; the parser never constructs them. -/
inductive AST where
  | Char (c : Char)
  | Dot
  | Caret
  | Dollar
  | Plus (e : AST)
  | Star (e : AST)
  | Question (e : AST)
  | Or (e1 : AST) (e2 : AST)
  | Seq (es : List AST)
deriving Repr

/-- Largest value of the 64-bit `usize` counters, `2^64 - 1` written as
the numeral the unit test in `src/main.rs` spells out. -/
def USIZE_MAX : Nat := 18446744073709551615

/-- Modelled from the spec: `safe_add` lives in `helpers.rs`, which is not
among the provided source files (only its callers and its unit test in
`src/main.rs` are).  The spec says all counters use checked
(overflow-failing) arithmetic, and the unit test `test_safe_add`
exercises it at `2^64 - 1`: adding past `2^64 - 1` fails, adding up to it
succeeds.  `none` plays the role of the caller-supplied error. -/
def safe_add (a b : Nat) : Option Nat :=
  if a + b ≤ USIZE_MAX then some (a + b) else none

/-! ## Parser (`src/engine/parser.rs`) -/

/-- Parse errors (`ParseError` in `src/engine/parser.rs`). -/
inductive ParseError where
  | InvalidEscape (pos : Nat) (c : Char)
  | InvalidRightParen (pos : Nat)
  | NoPrev (pos : Nat)
  | NoRightParen
  | Empty
deriving Repr, DecidableEq

/-- `parse_escape` in `src/engine/parser.rs`: an escaped character must be
one of the seven metacharacters; it becomes a literal `Char` node. -/
def parse_escape (pos : Nat) (c : Char) : Except ParseError AST :=
  if c = '\\' ∨ c = '(' ∨ c = ')' ∨ c = '|' ∨ c = '+' ∨ c = '*' ∨ c = '?' then
    Except.ok (AST.Char c)
  else
    Except.error (ParseError.InvalidEscape pos c)

/-- `PSQ` in `src/engine/parser.rs`: which quantifier is being applied. -/
inductive PSQ where
  | Plus
  | Star
  | Question
deriving Repr, DecidableEq

/-- `parse_plus_star_question` in `src/engine/parser.rs`: pop the most
recent item of the current concatenation buffer (`Vec::pop`, i.e. the
last element) and push it back wrapped in the quantifier node; an empty
buffer is the `NoPrev` error. -/
def parse_plus_star_question (seq : List AST) (ast_type : PSQ) (pos : Nat) :
    Except ParseError (List AST) :=
  match seq.getLast? with
  | some prev =>
    let ast := match ast_type with
      | PSQ.Plus => AST.Plus prev
      | PSQ.Star => AST.Star prev
      | PSQ.Question => AST.Question prev
    Except.ok (seq.dropLast ++ [ast])
  | none => Except.error (ParseError.NoPrev pos)

/-- `fold_or` in `src/engine/parser.rs`: `pop` the last branch, reverse
the remaining branches and fold them onto it with `Or`; with at most one
branch, just `pop` (the element, or `none` when empty). -/
def fold_or (seq_or : List AST) : Option AST :=
  if seq_or.length > 1 then
    match seq_or.getLast? with
    | some ast =>
      some (List.foldl (fun a s => AST.Or s a) ast seq_or.dropLast.reverse)
    | none => none
  else
    seq_or.getLast?

/-- Internal scanner state of `parse` (`ParseState` in
`src/engine/parser.rs`): ordinary characters or an escape sequence. -/
inductive ParseState where
  | Char
  | Escape
deriving Repr, DecidableEq

/-- The `for (i, c)` loop of `parse` in `src/engine/parser.rs`, as a
recursion over the remaining characters.  `i` is the position of the next
character; `seq` is the current concatenation buffer, `seq_or` the
current alternation-branch buffer, `stack` the saved `(seq, seq_or)`
contexts of open groups (`Vec` push/pop embedded as head-cons/head-match
LIFO); the result is the three buffers at end of input. -/
def parseLoop (cs : List Char) (i : Nat) (seq : List AST) (seq_or : List AST)
    (stack : List (List AST × List AST)) (state : ParseState) :
    Except ParseError (List AST × List AST × List (List AST × List AST)) :=
  match cs with
  | [] => Except.ok (seq, seq_or, stack)
  | c :: rest =>
    match state with
    | ParseState.Char =>
      if c = '+' then
        match parse_plus_star_question seq PSQ.Plus i with
        | Except.ok seq2 => parseLoop rest (i + 1) seq2 seq_or stack ParseState.Char
        | Except.error e => Except.error e
      else if c = '*' then
        match parse_plus_star_question seq PSQ.Star i with
        | Except.ok seq2 => parseLoop rest (i + 1) seq2 seq_or stack ParseState.Char
        | Except.error e => Except.error e
      else if c = '?' then
        match parse_plus_star_question seq PSQ.Question i with
        | Except.ok seq2 => parseLoop rest (i + 1) seq2 seq_or stack ParseState.Char
        | Except.error e => Except.error e
      else if c = '(' then
        parseLoop rest (i + 1) [] [] ((seq, seq_or) :: stack) ParseState.Char
      else if c = ')' then
        match stack with
        | (prev, prev_or) :: stack2 =>
          let seq_or2 := if seq.isEmpty then seq_or else seq_or ++ [AST.Seq seq]
          let prev2 := match fold_or seq_or2 with
            | some ast => prev ++ [ast]
            | none => prev
          parseLoop rest (i + 1) prev2 prev_or stack2 ParseState.Char
        | [] => Except.error (ParseError.InvalidRightParen i)
      else if c = '|' then
        if seq.isEmpty then
          Except.error (ParseError.NoPrev i)
        else
          parseLoop rest (i + 1) [] (seq_or ++ [AST.Seq seq]) stack ParseState.Char
      else if c = '\\' then
        parseLoop rest (i + 1) seq seq_or stack ParseState.Escape
      else
        parseLoop rest (i + 1) (seq ++ [AST.Char c]) seq_or stack ParseState.Char
    | ParseState.Escape =>
      match parse_escape i c with
      | Except.ok ast => parseLoop rest (i + 1) (seq ++ [ast]) seq_or stack ParseState.Char
      | Except.error e => Except.error e

/-- `parse` in `src/engine/parser.rs`: run the scanner from empty
buffers, then apply the end-of-input processing — a non-empty stack is
`NoRightParen`; the trailing concatenation (when non-empty) is appended
to the branch buffer as a `Seq`; the folded branches are the result, and
no branches at all is `Empty`. -/
def parse (expr : List Char) : Except ParseError AST :=
  match parseLoop expr 0 [] [] [] ParseState.Char with
  | Except.error e => Except.error e
  | Except.ok (seq, seq_or, stack) =>
    if !stack.isEmpty then
      Except.error ParseError.NoRightParen
    else
      let seq_or2 := if seq.isEmpty then seq_or else seq_or ++ [AST.Seq seq]
      match fold_or seq_or2 with
      | some ast => Except.ok ast
      | none => Except.error ParseError.Empty


/-! ## Code generator (`src/engine/codegen.rs`) -/

/-- Code-generation errors (`CodeGenError` in `src/engine/codegen.rs`). -/
inductive CodeGenError where
  | PCOverFlow
  | FailStar
  | FailOr
  | FailQuestion
deriving Repr, DecidableEq

/-- The code generator's state (`Generator` in `src/engine/codegen.rs`):
a program counter and the instruction buffer built so far. -/
structure Generator where
  pc : Nat
  insts : List Instruction
deriving Repr, DecidableEq

/-- `Generator::default()`: program counter `0`, empty buffer. -/
def Generator.default : Generator := ⟨0, []⟩

/-- `Generator::inc_pc`: checked increment of the program counter
(`safe_add(&mut self.pc, &1, || CodeGenError::PCOverFlow)`). -/
def inc_pc (g : Generator) : Except CodeGenError Generator :=
  match safe_add g.pc 1 with
  | some pc2 => Except.ok ⟨pc2, g.insts⟩
  | none => Except.error CodeGenError.PCOverFlow

/-- `Generator::gen_char`: push a `Char` instruction, then `inc_pc`. -/
def gen_char (c : Char) (g : Generator) : Except CodeGenError Generator :=
  inc_pc ⟨g.pc, g.insts ++ [Instruction.Char c]⟩

/-- `Generator::gen_dot`: push a `Dot` instruction, then `inc_pc`. -/
def gen_dot (g : Generator) : Except CodeGenError Generator :=
  inc_pc ⟨g.pc, g.insts ++ [Instruction.Dot]⟩

/-- `Generator::gen_caret`: push a `Caret` instruction, then `inc_pc`. -/
def gen_caret (g : Generator) : Except CodeGenError Generator :=
  inc_pc ⟨g.pc, g.insts ++ [Instruction.Caret]⟩

/-- `Generator::gen_dollar`: push a `Dollar` instruction, then `inc_pc`. -/
def gen_dollar (g : Generator) : Except CodeGenError Generator :=
  inc_pc ⟨g.pc, g.insts ++ [Instruction.Dollar]⟩

/-- `Generator::gen_seq` in `src/engine/codegen.rs`: generate the
children's code in order.  The translation of a single child is supplied
as `code` — in the source this is the recursive `self.gen_expr(e)` call;
here the recursion (and its fuel) lives in `gen_expr` below. -/
def gen_seq (code : AST → Generator → Option (Except CodeGenError Generator))
    (exprs : List AST) (g : Generator) : Option (Except CodeGenError Generator) :=
  match exprs with
  | [] => some (Except.ok g)
  | e :: rest =>
    match code e g with
    | some (Except.ok g2) => gen_seq code rest g2
    | some (Except.error err) => some (Except.error err)
    | none => none

/-- `Generator::gen_or` in `src/engine/codegen.rs`: emit `split L1, L2`
(`L2` a placeholder `0`), the code of `e1` (supplied as `code1`), a
placeholder `jump 0`, patch `L2` to the address after the jump, the code
of `e2` (supplied as `code2`), and patch the jump to the address after
it.  A patch target of an unexpected shape is `FailOr`. -/
def gen_or (code1 code2 : Generator → Option (Except CodeGenError Generator))
    (g : Generator) : Option (Except CodeGenError Generator) :=
  let split_addr := g.pc
  match inc_pc g with
  | Except.error err => some (Except.error err)
  | Except.ok g1 =>
    let g2 : Generator := ⟨g1.pc, g1.insts ++ [Instruction.Split g1.pc 0]⟩
    match code1 g2 with
    | none => none
    | some (Except.error err) => some (Except.error err)
    | some (Except.ok g3) =>
      let jmp_addr := g3.pc
      let g4 : Generator := ⟨g3.pc, g3.insts ++ [Instruction.Jump 0]⟩
      match inc_pc g4 with
      | Except.error err => some (Except.error err)
      | Except.ok g5 =>
        match g5.insts.get? split_addr with
        | some (Instruction.Split l1 _) =>
          let g6 : Generator :=
            ⟨g5.pc, g5.insts.set split_addr (Instruction.Split l1 g5.pc)⟩
          match code2 g6 with
          | none => none
          | some (Except.error err) => some (Except.error err)
          | some (Except.ok g7) =>
            match g7.insts.get? jmp_addr with
            | some (Instruction.Jump _) =>
              some (Except.ok ⟨g7.pc, g7.insts.set jmp_addr (Instruction.Jump g7.pc)⟩)
            | _ => some (Except.error CodeGenError.FailOr)
        | _ => some (Except.error CodeGenError.FailOr)

/-- `Generator::gen_question` in `src/engine/codegen.rs`: emit
`split L1, L2` (`L2` a placeholder `0`), the code of `e` (supplied as
`code`), and patch `L2` to the address after it.  A patch target of an
unexpected shape is `FailQuestion`. -/
def gen_question (code : Generator → Option (Except CodeGenError Generator))
    (g : Generator) : Option (Except CodeGenError Generator) :=
  let split_addr := g.pc
  match inc_pc g with
  | Except.error err => some (Except.error err)
  | Except.ok g1 =>
    let g2 : Generator := ⟨g1.pc, g1.insts ++ [Instruction.Split g1.pc 0]⟩
    match code g2 with
    | none => none
    | some (Except.error err) => some (Except.error err)
    | some (Except.ok g3) =>
      match g3.insts.get? split_addr with
      | some (Instruction.Split l1 _) =>
        some (Except.ok ⟨g3.pc, g3.insts.set split_addr (Instruction.Split l1 g3.pc)⟩)
      | _ => some (Except.error CodeGenError.FailQuestion)

/-- `Generator::gen_plus` in `src/engine/codegen.rs`: emit the code of
`e` (supplied as `code`) at `L1`, then `split L1, L2` with `L2` the
address right after the split. -/
def gen_plus (code : Generator → Option (Except CodeGenError Generator))
    (g : Generator) : Option (Except CodeGenError Generator) :=
  let l1 := g.pc
  match code g with
  | none => none
  | some (Except.error err) => some (Except.error err)
  | some (Except.ok g1) =>
    match inc_pc g1 with
    | Except.error err => some (Except.error err)
    | Except.ok g2 => some (Except.ok ⟨g2.pc, g2.insts ++ [Instruction.Split l1 g2.pc]⟩)

/-- `Generator::gen_star` in `src/engine/codegen.rs`: emit `split L2, L3`
at `L1` (`L3` a placeholder `0`), the code of `e` (supplied as `code`),
`jump L1`, and patch `L3` to the address after the jump.  A patch target
of an unexpected shape is `FailStar`. -/
def gen_star (code : Generator → Option (Except CodeGenError Generator))
    (g : Generator) : Option (Except CodeGenError Generator) :=
  let l1 := g.pc
  match inc_pc g with
  | Except.error err => some (Except.error err)
  | Except.ok g1 =>
    let g2 : Generator := ⟨g1.pc, g1.insts ++ [Instruction.Split g1.pc 0]⟩
    match code g2 with
    | none => none
    | some (Except.error err) => some (Except.error err)
    | some (Except.ok g3) =>
      match inc_pc g3 with
      | Except.error err => some (Except.error err)
      | Except.ok g4 =>
        let g5 : Generator := ⟨g4.pc, g4.insts ++ [Instruction.Jump l1]⟩
        match g5.insts.get? l1 with
        | some (Instruction.Split l2 _) =>
          some (Except.ok ⟨g5.pc, g5.insts.set l1 (Instruction.Split l2 g5.pc)⟩)
        | _ => some (Except.error CodeGenError.FailStar)

/-- `Generator::gen_expr` in `src/engine/codegen.rs`: dispatch on the AST
node kind, handing each helper the translation of its children.  The Rust
method recurses structurally over the owned tree; the embedding spends
one unit of `fuel` per `gen_expr` entry (`none` = fuel ran out), and any
successful run is reproduced exactly by every sufficiently large fuel. -/
def gen_expr : Nat → AST → Generator → Option (Except CodeGenError Generator)
  | 0, _, _ => none
  | fuel + 1, ast, g =>
    match ast with
    | AST.Char c => some (gen_char c g)
    | AST.Dot => some (gen_dot g)
    | AST.Caret => some (gen_caret g)
    | AST.Dollar => some (gen_dollar g)
    | AST.Or e1 e2 => gen_or (gen_expr fuel e1) (gen_expr fuel e2) g
    | AST.Plus e => gen_plus (gen_expr fuel e) g
    | AST.Star e => gen_star (gen_expr fuel e) g
    | AST.Question e => gen_question (gen_expr fuel e) g
    | AST.Seq v => gen_seq (gen_expr fuel) v g

/-- `Generator::gen_code`: translate the whole tree, then append the one
trailing `Match` (with a final checked `inc_pc`). -/
def gen_code (fuel : Nat) (ast : AST) (g : Generator) :
    Option (Except CodeGenError Generator) :=
  match gen_expr fuel ast g with
  | none => none
  | some (Except.error err) => some (Except.error err)
  | some (Except.ok g1) =>
    match inc_pc g1 with
    | Except.error err => some (Except.error err)
    | Except.ok g2 => some (Except.ok ⟨g2.pc, g2.insts ++ [Instruction.Match]⟩)

/-- `get_code` in `src/engine/codegen.rs`: run `gen_code` from the
default generator and return the instruction buffer. -/
def get_code (ast : AST) (fuel : Nat) : Option (Except CodeGenError (List Instruction)) :=
  match gen_code fuel ast Generator.default with
  | none => none
  | some (Except.ok g) => some (Except.ok g.insts)
  | some (Except.error err) => some (Except.error err)


/-! ## Evaluator (`src/engine/evaluator.rs`) -/

/-- Evaluation errors (`EvalError` in `src/engine/evaluator.rs`).  Note
the enum has four live variants: besides the two counter overflows and
`InvalidPC` there is `NotSupport`, returned when a `Caret` instruction is
executed at a program counter other than `0`. -/
inductive EvalError where
  | PCOverFlow
  | SPOverFlow
  | NotSupport
  | InvalidPC
deriving Repr, DecidableEq

/-- `eval_depth` in `src/engine/evaluator.rs`: the recursive depth-first
backtracking interpreter.  The Rust function is a `loop` that may not
terminate (e.g. on a `Jump` cycle), so the embedding spends one unit of
`fuel` per executed instruction and per `Split` recursion; `none` means
the fuel ran out, and any terminating run is reproduced exactly by every
sufficiently large fuel. -/
def eval_depth (inst : List Instruction) (line : List Char) (pc sp index : Nat)
    (fuel : Nat) : Option (Except EvalError Bool) :=
  match fuel with
  | 0 => none
  | fuel + 1 =>
    match inst.get? pc with
    | none => some (Except.error EvalError.InvalidPC)
    | some next =>
      match next with
      | Instruction.Dollar =>
        if sp = line.length then some (Except.ok true) else some (Except.ok false)
      | Instruction.Caret =>
        if pc ≠ 0 then some (Except.error EvalError.NotSupport)
        else if index ≠ 0 then some (Except.ok false)
        else
          match safe_add pc 1 with
          | none => some (Except.error EvalError.PCOverFlow)
          | some pc2 => eval_depth inst line pc2 sp index fuel
      | Instruction.Dot =>
        match safe_add pc 1 with
        | none => some (Except.error EvalError.PCOverFlow)
        | some pc2 =>
          match safe_add sp 1 with
          | none => some (Except.error EvalError.SPOverFlow)
          | some sp2 => eval_depth inst line pc2 sp2 index fuel
      | Instruction.Char c =>
        match line.get? sp with
        | some sp_c =>
          if c = sp_c then
            match safe_add pc 1 with
            | none => some (Except.error EvalError.PCOverFlow)
            | some pc2 =>
              match safe_add sp 1 with
              | none => some (Except.error EvalError.SPOverFlow)
              | some sp2 => eval_depth inst line pc2 sp2 index fuel
          else some (Except.ok false)
        | none => some (Except.ok false)
      | Instruction.Match => some (Except.ok true)
      | Instruction.Jump addr => eval_depth inst line addr sp index fuel
      | Instruction.Split addr1 addr2 =>
        match eval_depth inst line addr1 sp index fuel with
        | none => none
        | some (Except.error e) => some (Except.error e)
        | some (Except.ok true) => some (Except.ok true)
        | some (Except.ok false) => eval_depth inst line addr2 sp index fuel

/-- `eval` in `src/engine/evaluator.rs`: depth-first search starts
`eval_depth` at `(pc, sp) = (0, 0)`; the alternative strategy is not
implemented and returns `Ok(false)` (the Rust source's comment: not
supported for now). -/
def eval (inst : List Instruction) (line : List Char) (index : Nat)
    (is_depth : Bool) (fuel : Nat) : Option (Except EvalError Bool) :=
  if is_depth then eval_depth inst line 0 0 index fuel
  else some (Except.ok false)

/-! ## Top-level entry point (`src/engine.rs`) -/

/-- The error type of `do_matching` (`DynError` in `helpers.rs` is the
boxed union of the three component error types; the embedding keeps them
tagged by origin). -/
inductive DynError where
  | parse (e : ParseError)
  | codegen (e : CodeGenError)
  | eval (e : EvalError)
deriving Repr, DecidableEq

/-- `do_matching` in `src/engine.rs`: parse the expression, compile the
AST, turn the line into its character sequence and evaluate, propagating
the first error.  The source's call to `eval` predates that function's
`index` parameter; per the spec's top-level contract the absolute start
index is the beginning of the supplied slice, i.e. `0` (no claim below
depends on it: the parser never emits `Caret`, the only consumer of
`index`). -/
def do_matching (expr line : List Char) (is_depth : Bool) (fuel : Nat) :
    Option (Except DynError Bool) :=
  match parse expr with
  | Except.error e => some (Except.error (DynError.parse e))
  | Except.ok ast =>
    match get_code ast fuel with
    | none => none
    | some (Except.error e) => some (Except.error (DynError.codegen e))
    | some (Except.ok code) =>
      match eval code line 0 is_depth fuel with
      | none => none
      | some (Except.error e) => some (Except.error (DynError.eval e))
      | some (Except.ok b) => some (Except.ok b)


/-! ## Derived shape predicates -/

/-- The right-nested alternation of the spec's fold rule, written from
the spec's words: branches `b1..bn` in encounter order become
`Or(b1, Or(b2, …, bn))`; a single branch is returned unchanged.  (This
definition follows the specification text; `fold_or` above follows the
source, and the two are compared below.) -/
def right_nested_or : AST → List AST → AST
  | b, [] => b
  | b, c :: cs => AST.Or b (right_nested_or c cs)

/-- Every jump/split address of the instruction is at most `n`. -/
def addr_ok (n : Nat) : Instruction → Prop
  | Instruction.Jump addr => addr ≤ n
  | Instruction.Split addr1 addr2 => addr1 ≤ n ∧ addr2 ≤ n
  | _ => True

/-- Every jump/split address of the instruction is strictly below `n`. -/
def addr_lt (n : Nat) : Instruction → Prop
  | Instruction.Jump addr => addr < n
  | Instruction.Split addr1 addr2 => addr1 < n ∧ addr2 < n
  | _ => True

/-- What one successful code-generation step guarantees: the old buffer
is a preserved prefix, the program counter advanced by the number of new
instructions, and every new instruction has its addresses bounded by the
new program counter and is not `Match`. -/
def gen_inv (g g2 : Generator) : Prop :=
  ∃ new, g2.insts = g.insts ++ new ∧ g2.pc = g.pc + new.length ∧
    ∀ i ∈ new, addr_ok g2.pc i ∧ i ≠ Instruction.Match

/-- A code-generation step (a child translation handed to one of the
`gen_*` helpers) that satisfies `gen_inv` on every success from a
bookkeeping-consistent generator. -/
def gen_spec (k : Generator → Option (Except CodeGenError Generator)) : Prop :=
  ∀ g g2, g.pc = g.insts.length → k g = some (Except.ok g2) → gen_inv g g2

mutual

/-- The AST uses only the node kinds declared by the parser's own enum:
`Char`, `Plus`, `Star`, `Question`, `Or`, `Seq` — no `Dot`, `Caret` or
`Dollar`. -/
def ast_basic : AST → Bool
  | AST.Char _ => true
  | AST.Dot => false
  | AST.Caret => false
  | AST.Dollar => false
  | AST.Plus e => ast_basic e
  | AST.Star e => ast_basic e
  | AST.Question e => ast_basic e
  | AST.Or e1 e2 => ast_basic e1 && ast_basic e2
  | AST.Seq es => ast_list_basic es
termination_by a => (sizeOf a, 1)

/-- `ast_basic` on every element of a list. -/
def ast_list_basic : List AST → Bool
  | [] => true
  | e :: rest => ast_basic e && ast_list_basic rest
termination_by l => (sizeOf l, 0)

end

/-- All members of the list are basic. -/
def all_basic (l : List AST) : Prop := ∀ a ∈ l, ast_basic a = true

/-- Both buffers of every saved group context are basic. -/
def stack_basic (stack : List (List AST × List AST)) : Prop :=
  ∀ p ∈ stack, all_basic p.1 ∧ all_basic p.2

/-! ## Concrete sanity checks -/

example : parse ['a', 'b', 'c'] =
    Except.ok (AST.Seq [AST.Char 'a', AST.Char 'b', AST.Char 'c']) := rfl

example : parse ['+', 'b'] = Except.error (ParseError.NoPrev 0) := rfl

example : parse ['a', '|', 'b'] =
    Except.ok (AST.Or (AST.Seq [AST.Char 'a']) (AST.Seq [AST.Char 'b'])) := rfl

example : parse ['(', 'a', 'b', 'c', ')', '*'] =
    Except.ok (AST.Seq [AST.Star (AST.Seq [AST.Char 'a', AST.Char 'b', AST.Char 'c'])]) := rfl

example : parse [] = Except.error ParseError.Empty := rfl

example : parse ['(', 'a'] = Except.error ParseError.NoRightParen := rfl

example : parse ['a', ')'] = Except.error (ParseError.InvalidRightParen 1) := rfl

example : get_code (AST.Seq [AST.Char 'a', AST.Char 'b']) 10 =
    some (Except.ok [Instruction.Char 'a', Instruction.Char 'b', Instruction.Match]) := rfl

example : get_code (AST.Or (AST.Seq [AST.Char 'a']) (AST.Seq [AST.Char 'b'])) 10 =
    some (Except.ok [Instruction.Split 1 3, Instruction.Char 'a', Instruction.Jump 4,
      Instruction.Char 'b', Instruction.Match]) := rfl

example : get_code (AST.Seq [AST.Star (AST.Seq [AST.Char 'a'])]) 10 =
    some (Except.ok [Instruction.Split 1 3, Instruction.Char 'a', Instruction.Jump 0,
      Instruction.Match]) := rfl

example : eval_depth [Instruction.Char 'a', Instruction.Match] ['a', 'b'] 0 0 0 10 =
    some (Except.ok true) := rfl

example : fold_or [AST.Char 'a', AST.Char 'b', AST.Char 'c'] =
    some (AST.Or (AST.Char 'a') (AST.Or (AST.Char 'b') (AST.Char 'c'))) := rfl

/-! ## General list helpers -/

/-- Looking up the position right after a prefix finds the element
written there. -/
theorem get_opt_append (l : List α) (x : α) (t : List α) :
    (l ++ x :: t).get? l.length = some x := by
  induction l with
  | nil => rfl
  | cons a l ih => simpa using ih

/-- Overwriting the position right after a prefix replaces the element
written there. -/
theorem set_append (l : List α) (x y : α) (t : List α) :
    (l ++ x :: t).set l.length y = l ++ y :: t := by
  induction l with
  | nil => rfl
  | cons a l ih => simp [ih]

/-- Elements of `dropLast` are elements of the list. -/
theorem mem_of_mem_dropLast {l : List α} {a : α} (h : a ∈ l.dropLast) : a ∈ l := by
  induction l with
  | nil => simp at h
  | cons b l ih =>
    cases l with
    | nil => simp at h
    | cons c l =>
      rcases List.mem_cons.mp (by simpa using h) with h1 | h1
      · simp [h1]
      · simp [ih (by simpa using h1)]

/-! ## The fold rule of the parser (`fold_or`) -/


/-- `fold_or` of a non-empty branch list is exactly the spec's
right-nested alternation. -/
theorem fold_or_eq_right_nested (b : AST) (bs : List AST) :
    fold_or (b :: bs) = some (right_nested_or b bs) := by
  induction bs generalizing b with
  | nil => rfl
  | cons c cs ih =>
    have hlast : (b :: c :: cs).getLast? = (c :: cs).getLast? := by
      simp [List.getLast?_cons_cons]
    have hdrop : (b :: c :: cs).dropLast = b :: (c :: cs).dropLast := by
      simp [List.dropLast_cons₂]
    cases cs with
    | nil =>
      simp [fold_or, right_nested_or]
    | cons d ds =>
      have ihc := ih c
      have hlen1 : (c :: d :: ds).length > 1 := by simp
      have hlen2 : (b :: c :: d :: ds).length > 1 := by simp
      obtain ⟨last, hlast2⟩ : ∃ y, (c :: d :: ds).getLast? = some y :=
        ⟨(c :: d :: ds).getLast (by simp), List.getLast?_eq_getLast _ _⟩
      have h1 : fold_or (c :: d :: ds) =
          some (List.foldl (fun a s => AST.Or s a) last (c :: d :: ds).dropLast.reverse) := by
        simp [fold_or, hlen1, hlast2]
      have h2 : fold_or (b :: c :: d :: ds) =
          some (List.foldl (fun a s => AST.Or s a) last
            ((c :: d :: ds).dropLast.reverse ++ [b])) := by
        simp [fold_or, hlen2, hlast, hlast2, hdrop]
      rw [h2, List.foldl_append]
      rw [h1] at ihc
      simp only [List.foldl_cons, List.foldl_nil]
      rw [right_nested_or]
      exact congrArg (fun x => some (AST.Or b x)) (Option.some.injEq _ _ ▸ ihc.symm ▸ rfl)


/-! ## Well-formedness of generated code -/


theorem addr_ok_mono {m n : Nat} (hmn : m ≤ n) {i : Instruction}
    (h : addr_ok m i) : addr_ok n i := by
  cases i <;> simp_all [addr_ok] <;> omega

theorem addr_lt_of_ok {m n : Nat} (hmn : m < n) {i : Instruction}
    (h : addr_ok m i) : addr_lt n i := by
  cases i <;> simp_all [addr_ok, addr_lt] <;> omega


theorem gen_inv_refl (g : Generator) : gen_inv g g := ⟨[], by simp⟩

theorem gen_inv_pc_le {g g2 : Generator} (h : gen_inv g g2) : g.pc ≤ g2.pc := by
  obtain ⟨new, _, h2, _⟩ := h
  omega

theorem gen_inv_trans {g1 g2 g3 : Generator} (h12 : gen_inv g1 g2)
    (h23 : gen_inv g2 g3) : gen_inv g1 g3 := by
  obtain ⟨n1, ha1, ha2, ha3⟩ := h12
  obtain ⟨n2, hb1, hb2, hb3⟩ := h23
  refine ⟨n1 ++ n2, by simp [hb1, ha1], by simp [hb2, ha2]; omega, ?_⟩
  intro i hi
  rcases List.mem_append.mp hi with hl | hr
  · have h := ha3 i hl
    exact ⟨addr_ok_mono (by omega) h.1, h.2⟩
  · exact hb3 i hr

/-- Introduction form of `gen_inv` for a literal generator, keeping the
subgoals free of structure projections. -/
theorem gen_inv_mk (g : Generator) (p : Nat) (l : List Instruction)
    (new : List Instruction) (h1 : l = g.insts ++ new) (h2 : p = g.pc + new.length)
    (h3 : ∀ i ∈ new, addr_ok p i ∧ i ≠ Instruction.Match) : gen_inv g ⟨p, l⟩ :=
  ⟨new, h1, h2, h3⟩

/-- The key bookkeeping fact `pc == insts.len()` survives any step that
satisfies `gen_inv`. -/
theorem gen_inv_pc_len {g g2 : Generator} (hg : g.pc = g.insts.length)
    (h : gen_inv g g2) : g2.pc = g2.insts.length := by
  obtain ⟨new, h1, h2, _⟩ := h
  rw [h1, h2, List.length_append, hg]

theorem safe_add_some {a b c : Nat} (h : safe_add a b = some c) : c = a + b := by
  unfold safe_add at h
  split at h
  · cases h; rfl
  · cases h

theorem inc_pc_ok {g g2 : Generator} (h : inc_pc g = Except.ok g2) :
    g2.pc = g.pc + 1 ∧ g2.insts = g.insts := by
  unfold inc_pc at h
  cases hsa : safe_add g.pc 1 with
  | none => rw [hsa] at h; cases h
  | some pc2 =>
    rw [hsa] at h
    rw [Except.ok.injEq] at h
    subst h
    exact ⟨safe_add_some hsa, rfl⟩

/-- A push-one-instruction-then-`inc_pc` step (the shape of `gen_char`,
`gen_dot`, `gen_caret` and `gen_dollar`) satisfies `gen_inv` whenever the
pushed instruction has no addresses and is not `Match`. -/
theorem push_inc_inv {g g2 : Generator} {i : Instruction}
    (hi : addr_ok 0 i ∧ i ≠ Instruction.Match)
    (h : inc_pc ⟨g.pc, g.insts ++ [i]⟩ = Except.ok g2) : gen_inv g g2 := by
  obtain ⟨hpc, hinsts⟩ := inc_pc_ok h
  refine ⟨[i], by simpa using hinsts, by simpa using hpc, ?_⟩
  intro j hj
  simp only [List.mem_singleton] at hj
  subst hj
  exact ⟨addr_ok_mono (Nat.zero_le _) hi.1, hi.2⟩

theorem gen_char_inv {c : Char} {g g2 : Generator}
    (h : gen_char c g = Except.ok g2) : gen_inv g g2 :=
  push_inc_inv (by simp [addr_ok]) h

theorem gen_dot_inv {g g2 : Generator} (h : gen_dot g = Except.ok g2) :
    gen_inv g g2 :=
  push_inc_inv (by simp [addr_ok]) h

theorem gen_caret_inv {g g2 : Generator} (h : gen_caret g = Except.ok g2) :
    gen_inv g g2 :=
  push_inc_inv (by simp [addr_ok]) h

theorem gen_dollar_inv {g g2 : Generator} (h : gen_dollar g = Except.ok g2) :
    gen_inv g g2 :=
  push_inc_inv (by simp [addr_ok]) h

/-- `gen_seq` preserves `gen_inv` when every child translation does. -/
theorem gen_seq_inv (code : AST → Generator → Option (Except CodeGenError Generator))
    (hk : ∀ e, gen_spec (code e)) (exprs : List AST) :
    gen_spec (gen_seq code exprs) := by
  induction exprs with
  | nil =>
    intro g g2 hg h
    simp only [gen_seq] at h
    rw [Option.some.injEq, Except.ok.injEq] at h
    subst h
    exact gen_inv_refl g
  | cons e rest ih =>
    intro g g2 hg h
    simp only [gen_seq] at h
    cases h1 : code e g with
    | none => rw [h1] at h; cases h
    | some r =>
      cases r with
      | error err => rw [h1] at h; cases h
      | ok gmid =>
        rw [h1] at h
        dsimp only at h
        have i1 := hk e g gmid hg h1
        exact gen_inv_trans i1 (ih gmid g2 (gen_inv_pc_len hg i1) h)

/-- `gen_or` preserves `gen_inv` when both child translations do. -/
theorem gen_or_inv (code1 code2 : Generator → Option (Except CodeGenError Generator))
    (hk1 : gen_spec code1) (hk2 : gen_spec code2) :
    gen_spec (gen_or code1 code2) := by
  intro g g2 hg h
  simp only [gen_or] at h
  cases h1 : inc_pc g with
  | error err => rw [h1] at h; cases h
  | ok ga =>
    rw [h1] at h
    dsimp only at h
    obtain ⟨hapc, hainsts⟩ := inc_pc_ok h1
    cases h2 : code1 ⟨ga.pc, ga.insts ++ [Instruction.Split ga.pc 0]⟩ with
    | none => rw [h2] at h; cases h
    | some r2 =>
      cases r2 with
      | error err => rw [h2] at h; cases h
      | ok gc =>
        rw [h2] at h
        dsimp only at h
        have hgb : (⟨ga.pc, ga.insts ++ [Instruction.Split ga.pc 0]⟩ : Generator).pc =
            (⟨ga.pc, ga.insts ++ [Instruction.Split ga.pc 0]⟩ : Generator).insts.length := by
          simp [hapc, hainsts, hg]
        obtain ⟨new1, hc1, hc2, hc3⟩ := hk1 _ gc hgb h2
        simp only at hc1 hc2
        have hgc : gc.pc = gc.insts.length := by
          rw [hc1, hc2]
          simp [hapc, hainsts, hg]
          omega
        cases h3 : inc_pc ⟨gc.pc, gc.insts ++ [Instruction.Jump 0]⟩ with
        | error err => rw [h3] at h; cases h
        | ok gd =>
          rw [h3] at h
          dsimp only at h
          obtain ⟨hdpc, hdinsts⟩ := inc_pc_ok h3
          simp only at hdpc hdinsts
          have hgd1 : gd.insts =
              g.insts ++ (Instruction.Split ga.pc 0 :: (new1 ++ [Instruction.Jump 0])) := by
            rw [hdinsts, hc1, hainsts]
            simp
          have hget1 : gd.insts.get? g.pc = some (Instruction.Split ga.pc 0) := by
            rw [hgd1, hg]
            exact get_opt_append _ _ _
          rw [hget1] at h
          dsimp only at h
          have hset1 : gd.insts.set g.pc (Instruction.Split ga.pc gd.pc) =
              g.insts ++ (Instruction.Split ga.pc gd.pc :: (new1 ++ [Instruction.Jump 0])) := by
            rw [hgd1, hg]
            exact set_append _ _ _ _
          cases h4 : code2 ⟨gd.pc, gd.insts.set g.pc (Instruction.Split ga.pc gd.pc)⟩ with
          | none => rw [h4] at h; cases h
          | some r4 =>
            cases r4 with
            | error err => rw [h4] at h; cases h
            | ok ge =>
              rw [h4] at h
              dsimp only at h
              have hgd2 : (⟨gd.pc, gd.insts.set g.pc (Instruction.Split ga.pc gd.pc)⟩ :
                  Generator).pc =
                  (⟨gd.pc, gd.insts.set g.pc (Instruction.Split ga.pc gd.pc)⟩ :
                  Generator).insts.length := by
                simp only [List.length_set]
                rw [hdinsts]
                simp [hdpc, hgc]
              obtain ⟨new2, he1, he2, he3⟩ := hk2 _ ge hgd2 h4
              simp only at he1 he2
              have hL : ge.insts =
                  (g.insts ++ Instruction.Split ga.pc gd.pc :: new1) ++
                    (Instruction.Jump 0 :: new2) := by
                rw [he1, hset1]
                simp
              have hLlen : (g.insts ++ Instruction.Split ga.pc gd.pc :: new1).length =
                  gc.pc := by
                simp [← hg]
                omega
              have hget2 : ge.insts.get? gc.pc = some (Instruction.Jump 0) := by
                rw [hL, ← hLlen]
                exact get_opt_append _ _ _
              rw [hget2] at h
              dsimp only at h
              rw [Option.some.injEq, Except.ok.injEq] at h
              subst h
              have hset2 : ge.insts.set gc.pc (Instruction.Jump ge.pc) =
                  g.insts ++ (Instruction.Split ga.pc gd.pc ::
                    (new1 ++ Instruction.Jump ge.pc :: new2)) := by
                rw [hL, ← hLlen, set_append]
                simp
              refine gen_inv_mk g ge.pc _
                (Instruction.Split ga.pc gd.pc :: (new1 ++ Instruction.Jump ge.pc :: new2))
                (by simpa using hset2) ?_ ?_
              · simp only [List.length_cons, List.length_append]
                omega
              · intro i hi
                rcases List.mem_cons.mp hi with hl | hr
                · subst hl
                  refine ⟨?_, by simp⟩
                  simp only [addr_ok]
                  omega
                · rcases List.mem_append.mp hr with hm | hn
                  · have hx := hc3 i hm
                    exact ⟨addr_ok_mono (by omega) hx.1, hx.2⟩
                  · rcases List.mem_cons.mp hn with hj | hk
                    · subst hj
                      refine ⟨?_, by simp⟩
                      simp only [addr_ok]
                      omega
                    · have hx := he3 i hk
                      exact ⟨addr_ok_mono (by omega) hx.1, hx.2⟩

/-- `gen_question` preserves `gen_inv` when the child translation does. -/
theorem gen_question_inv (code : Generator → Option (Except CodeGenError Generator))
    (hk : gen_spec code) : gen_spec (gen_question code) := by
  intro g g2 hg h
  simp only [gen_question] at h
  cases h1 : inc_pc g with
  | error err => rw [h1] at h; cases h
  | ok ga =>
    rw [h1] at h
    dsimp only at h
    obtain ⟨hapc, hainsts⟩ := inc_pc_ok h1
    cases h2 : code ⟨ga.pc, ga.insts ++ [Instruction.Split ga.pc 0]⟩ with
    | none => rw [h2] at h; cases h
    | some r2 =>
      cases r2 with
      | error err => rw [h2] at h; cases h
      | ok gc =>
        rw [h2] at h
        dsimp only at h
        have hgb : (⟨ga.pc, ga.insts ++ [Instruction.Split ga.pc 0]⟩ : Generator).pc =
            (⟨ga.pc, ga.insts ++ [Instruction.Split ga.pc 0]⟩ : Generator).insts.length := by
          simp [hapc, hainsts, hg]
        obtain ⟨new1, hc1, hc2, hc3⟩ := hk _ gc hgb h2
        simp only at hc1 hc2
        have hgc1 : gc.insts = g.insts ++ (Instruction.Split ga.pc 0 :: new1) := by
          rw [hc1, hainsts]
          simp
        have hget : gc.insts.get? g.pc = some (Instruction.Split ga.pc 0) := by
          rw [hgc1, hg]
          exact get_opt_append _ _ _
        rw [hget] at h
        dsimp only at h
        rw [Option.some.injEq, Except.ok.injEq] at h
        subst h
        have hset : gc.insts.set g.pc (Instruction.Split ga.pc gc.pc) =
            g.insts ++ (Instruction.Split ga.pc gc.pc :: new1) := by
          rw [hgc1, hg]
          exact set_append _ _ _ _
        refine gen_inv_mk g gc.pc _ (Instruction.Split ga.pc gc.pc :: new1)
          (by simpa using hset) ?_ ?_
        · simp only [List.length_cons]
          omega
        · intro i hi
          rcases List.mem_cons.mp hi with hl | hr
          · subst hl
            refine ⟨?_, by simp⟩
            simp only [addr_ok]
            omega
          · have hx := hc3 i hr
            exact ⟨addr_ok_mono (by omega) hx.1, hx.2⟩

/-- `gen_plus` preserves `gen_inv` when the child translation does. -/
theorem gen_plus_inv (code : Generator → Option (Except CodeGenError Generator))
    (hk : gen_spec code) : gen_spec (gen_plus code) := by
  intro g g2 hg h
  simp only [gen_plus] at h
  cases h1 : code g with
  | none => rw [h1] at h; cases h
  | some r1 =>
    cases r1 with
    | error err => rw [h1] at h; cases h
    | ok ga =>
      rw [h1] at h
      dsimp only at h
      obtain ⟨new1, ha1, ha2, ha3⟩ := hk g ga hg h1
      cases h2 : inc_pc ga with
      | error err => rw [h2] at h; cases h
      | ok gb =>
        rw [h2] at h
        dsimp only at h
        obtain ⟨hbpc, hbinsts⟩ := inc_pc_ok h2
        rw [Option.some.injEq, Except.ok.injEq] at h
        subst h
        refine gen_inv_mk g gb.pc _ (new1 ++ [Instruction.Split g.pc gb.pc])
          (by simp [hbinsts, ha1]) ?_ ?_
        · simp only [List.length_append, List.length_cons, List.length_nil]
          omega
        · intro i hi
          rcases List.mem_append.mp hi with hl | hr
          · have hx := ha3 i hl
            exact ⟨addr_ok_mono (by omega) hx.1, hx.2⟩
          · simp only [List.mem_singleton] at hr
            subst hr
            refine ⟨?_, by simp⟩
            simp only [addr_ok]
            omega

/-- `gen_star` preserves `gen_inv` when the child translation does. -/
theorem gen_star_inv (code : Generator → Option (Except CodeGenError Generator))
    (hk : gen_spec code) : gen_spec (gen_star code) := by
  intro g g2 hg h
  simp only [gen_star] at h
  cases h1 : inc_pc g with
  | error err => rw [h1] at h; cases h
  | ok ga =>
    rw [h1] at h
    dsimp only at h
    obtain ⟨hapc, hainsts⟩ := inc_pc_ok h1
    cases h2 : code ⟨ga.pc, ga.insts ++ [Instruction.Split ga.pc 0]⟩ with
    | none => rw [h2] at h; cases h
    | some r2 =>
      cases r2 with
      | error err => rw [h2] at h; cases h
      | ok gc =>
        rw [h2] at h
        dsimp only at h
        have hgb : (⟨ga.pc, ga.insts ++ [Instruction.Split ga.pc 0]⟩ : Generator).pc =
            (⟨ga.pc, ga.insts ++ [Instruction.Split ga.pc 0]⟩ : Generator).insts.length := by
          simp [hapc, hainsts, hg]
        obtain ⟨new1, hc1, hc2, hc3⟩ := hk _ gc hgb h2
        simp only at hc1 hc2
        cases h3 : inc_pc gc with
        | error err => rw [h3] at h; cases h
        | ok gd =>
          rw [h3] at h
          dsimp only at h
          obtain ⟨hdpc, hdinsts⟩ := inc_pc_ok h3
          have hge : gd.insts ++ [Instruction.Jump g.pc] =
              g.insts ++ (Instruction.Split ga.pc 0 :: (new1 ++ [Instruction.Jump g.pc])) := by
            rw [hdinsts, hc1, hainsts]
            simp
          have hget : (gd.insts ++ [Instruction.Jump g.pc]).get? g.pc =
              some (Instruction.Split ga.pc 0) := by
            rw [hge, hg]
            exact get_opt_append _ _ _
          rw [hget] at h
          dsimp only at h
          rw [Option.some.injEq, Except.ok.injEq] at h
          subst h
          have hset : (gd.insts ++ [Instruction.Jump g.pc]).set g.pc
                (Instruction.Split ga.pc gd.pc) =
              g.insts ++
                (Instruction.Split ga.pc gd.pc :: (new1 ++ [Instruction.Jump g.pc])) := by
            rw [hge, hg]
            exact set_append _ _ _ _
          refine gen_inv_mk g gd.pc _
            (Instruction.Split ga.pc gd.pc :: (new1 ++ [Instruction.Jump g.pc]))
            (by simpa using hset) ?_ ?_
          · simp only [List.length_cons, List.length_append, List.length_nil]
            omega
          · intro i hi
            rcases List.mem_cons.mp hi with hl | hr
            · subst hl
              refine ⟨?_, by simp⟩
              simp only [addr_ok]
              omega
            · rcases List.mem_append.mp hr with hm | hn
              · have hx := hc3 i hm
                exact ⟨addr_ok_mono (by omega) hx.1, hx.2⟩
              · simp only [List.mem_singleton] at hn
                subst hn
                refine ⟨?_, by simp⟩
                simp only [addr_ok]
                omega

/-- Every successful `gen_expr` run satisfies `gen_inv`, whatever the
fuel, assuming the generator's bookkeeping invariant `pc == insts.len()`
— proved by induction on the fuel, with each helper's lemma applied to
the child translations. -/
theorem gen_expr_inv (fuel : Nat) (ast : AST) : gen_spec (gen_expr fuel ast) := by
  induction fuel generalizing ast with
  | zero =>
    intro g g2 hg h
    simp only [gen_expr] at h
    cases h
  | succ fuel ih =>
    intro g g2 hg h
    cases ast with
    | Char c =>
      simp only [gen_expr, Option.some.injEq] at h
      exact gen_char_inv h
    | Dot =>
      simp only [gen_expr, Option.some.injEq] at h
      exact gen_dot_inv h
    | Caret =>
      simp only [gen_expr, Option.some.injEq] at h
      exact gen_caret_inv h
    | Dollar =>
      simp only [gen_expr, Option.some.injEq] at h
      exact gen_dollar_inv h
    | Or e1 e2 =>
      simp only [gen_expr] at h
      exact gen_or_inv _ _ (ih e1) (ih e2) g g2 hg h
    | Plus e =>
      simp only [gen_expr] at h
      exact gen_plus_inv _ (ih e) g g2 hg h
    | Star e =>
      simp only [gen_expr] at h
      exact gen_star_inv _ (ih e) g g2 hg h
    | Question e =>
      simp only [gen_expr] at h
      exact gen_question_inv _ (ih e) g g2 hg h
    | Seq v =>
      simp only [gen_expr] at h
      exact gen_seq_inv _ (fun e => ih e) v g g2 hg h

/-- The final shape delivered by `gen_code`/`get_code`: the output is the
translated body followed by exactly one trailing `Match`, and every
address is bounded by the final program counter, which is one less than
the length. -/
theorem get_code_wf (ast : AST) (fuel : Nat) (code : List Instruction)
    (h : get_code ast fuel = some (Except.ok code)) :
    (∃ pre, code = pre ++ [Instruction.Match] ∧ Instruction.Match ∉ pre) ∧
      ∀ i ∈ code, addr_lt code.length i := by
  unfold get_code at h
  cases h0 : gen_code fuel ast Generator.default with
  | none => rw [h0] at h; cases h
  | some r0 =>
    cases r0 with
    | error err => rw [h0] at h; cases h
    | ok gfin =>
      rw [h0] at h
      dsimp only at h
      rw [Option.some.injEq, Except.ok.injEq] at h
      unfold gen_code at h0
      cases h1 : gen_expr fuel ast Generator.default with
      | none => rw [h1] at h0; cases h0
      | some r1 =>
        cases r1 with
        | error err => rw [h1] at h0; cases h0
        | ok ga =>
          rw [h1] at h0
          dsimp only at h0
          obtain ⟨new, ha1, ha2, ha3⟩ := gen_expr_inv fuel ast Generator.default ga rfl h1
          simp only [Generator.default] at ha1 ha2
          rw [List.nil_append] at ha1
          rw [Nat.zero_add] at ha2
          cases h2 : inc_pc ga with
          | error err => rw [h2] at h0; cases h0
          | ok gb =>
            rw [h2] at h0
            dsimp only at h0
            obtain ⟨hbpc, hbinsts⟩ := inc_pc_ok h2
            rw [Option.some.injEq, Except.ok.injEq] at h0
            have hcode : code = new ++ [Instruction.Match] := by
              rw [← h, ← h0]
              simp [hbinsts, ha1]
            subst hcode
            have hlen : (new ++ [Instruction.Match]).length = ga.pc + 1 := by
              simp
              omega
            constructor
            · exact ⟨new, rfl, fun hmem => (ha3 _ hmem).2 rfl⟩
            · intro i hi
              rw [hlen]
              rcases List.mem_append.mp hi with hl | hr
              · have hx := (ha3 i hl).1
                exact addr_lt_of_ok (by omega) hx
              · simp only [List.mem_singleton] at hr
                subst hr
                simp [addr_lt]

/-! ## The parser constructs only the basic node kinds -/


theorem ast_list_basic_iff (l : List AST) : ast_list_basic l = true ↔ all_basic l := by
  induction l with
  | nil => simp [ast_list_basic, all_basic]
  | cons e rest ih =>
    simp only [ast_list_basic, Bool.and_eq_true, ih]
    constructor
    · rintro ⟨h1, h2⟩ a ha
      rcases List.mem_cons.mp ha with rfl | hm
      · exact h1
      · exact h2 a hm
    · intro h
      exact ⟨h e (by simp), fun a ha => h a (by simp [ha])⟩

theorem mem_of_getLast_opt {l : List α} {a : α} (h : l.getLast? = some a) : a ∈ l := by
  induction l with
  | nil => cases h
  | cons b rest ih =>
    cases rest with
    | nil =>
      simp only [List.getLast?_singleton, Option.some.injEq] at h
      simp [h]
    | cons c rest2 =>
      rw [List.getLast?_cons_cons] at h
      simp [ih h]

theorem parse_escape_basic {pos : Nat} {c : Char} {a : AST}
    (h : parse_escape pos c = Except.ok a) : ast_basic a = true := by
  unfold parse_escape at h
  split at h
  · rw [Except.ok.injEq] at h
    subst h
    simp [ast_basic]
  · cases h

theorem ppsq_basic {seq : List AST} {t : PSQ} {pos : Nat} {seq2 : List AST}
    (h : parse_plus_star_question seq t pos = Except.ok seq2)
    (hb : all_basic seq) : all_basic seq2 := by
  unfold parse_plus_star_question at h
  cases hl : seq.getLast? with
  | none => rw [hl] at h; cases h
  | some prev =>
    rw [hl] at h
    dsimp only at h
    rw [Except.ok.injEq] at h
    subst h
    have hprev : ast_basic prev = true := hb prev (mem_of_getLast_opt hl)
    intro a ha
    rcases List.mem_append.mp ha with hd | hs
    · exact hb a (mem_of_mem_dropLast hd)
    · simp only [List.mem_singleton] at hs
      subst hs
      cases t <;> simpa [ast_basic] using hprev

theorem right_nested_basic (b : AST) (bs : List AST) (hb : ast_basic b = true)
    (hbs : all_basic bs) : ast_basic (right_nested_or b bs) = true := by
  induction bs generalizing b with
  | nil => simpa [right_nested_or] using hb
  | cons c cs ih =>
    simp only [right_nested_or, ast_basic, Bool.and_eq_true]
    exact ⟨hb, ih c (hbs c (by simp)) (fun a ha => hbs a (by simp [ha]))⟩

theorem fold_or_basic {l : List AST} {a : AST} (h : fold_or l = some a)
    (hb : all_basic l) : ast_basic a = true := by
  cases l with
  | nil => cases h
  | cons b bs =>
    rw [fold_or_eq_right_nested] at h
    rw [Option.some.injEq] at h
    subst h
    exact right_nested_basic b bs (hb b (by simp)) (fun x hx => hb x (by simp [hx]))

/-- Appending the pending concatenation as a `Seq` branch preserves
basicness of the branch buffer. -/
theorem append_seq_basic {seq seq_or : List AST} (h1 : all_basic seq)
    (h2 : all_basic seq_or) : all_basic (seq_or ++ [AST.Seq seq]) := by
  intro x hx
  rcases List.mem_append.mp hx with hm | hm
  · exact h2 x hm
  · simp only [List.mem_singleton] at hm
    subst hm
    simp only [ast_basic]
    exact (ast_list_basic_iff seq).mpr h1

/-- The conditional form of `append_seq_basic` used at the end of
`parse`. -/
theorem seq_push_basic {seq seq_or : List AST} (h1 : all_basic seq)
    (h2 : all_basic seq_or) :
    all_basic (if seq.isEmpty then seq_or else seq_or ++ [AST.Seq seq]) := by
  by_cases hs : seq.isEmpty = true
  · simpa [hs] using h2
  · rw [if_neg hs]
    exact append_seq_basic h1 h2

/-- Folding the branch buffer and pushing the result onto the restored
concatenation preserves basicness. -/
theorem fold_push_basic {prev seq_or2 : List AST} (hp : all_basic prev)
    (hso : all_basic seq_or2) :
    all_basic (match fold_or seq_or2 with
      | some ast => prev ++ [ast]
      | none => prev) := by
  cases hf : fold_or seq_or2 with
  | none => simpa using hp
  | some a =>
    simp only
    intro x hx
    rcases List.mem_append.mp hx with hm | hm
    · exact hp x hm
    · simp only [List.mem_singleton] at hm
      subst hm
      exact fold_or_basic hf hso

/-- The scanner loop preserves basicness of all three buffers. -/
theorem parseLoop_basic (cs : List Char) :
    ∀ (i : Nat) (seq seq_or : List AST) (stack : List (List AST × List AST))
      (st : ParseState) (s so : List AST) (stk : List (List AST × List AST)),
      parseLoop cs i seq seq_or stack st = Except.ok (s, so, stk) →
      all_basic seq → all_basic seq_or → stack_basic stack →
      all_basic s ∧ all_basic so ∧ stack_basic stk := by
  induction cs with
  | nil =>
    intro i seq seq_or stack st s so stk h h1 h2 h3
    simp only [parseLoop] at h
    rw [Except.ok.injEq, Prod.mk.injEq, Prod.mk.injEq] at h
    obtain ⟨rfl, rfl, rfl⟩ := h
    exact ⟨h1, h2, h3⟩
  | cons c rest ih =>
    intro i seq seq_or stack st s so stk h h1 h2 h3
    cases st with
    | Escape =>
      simp only [parseLoop] at h
      cases he : parse_escape i c with
      | error e => rw [he] at h; cases h
      | ok a =>
        rw [he] at h
        refine ih (i + 1) (seq ++ [a]) seq_or stack ParseState.Char s so stk h ?_ h2 h3
        intro x hx
        rcases List.mem_append.mp hx with hm | hm
        · exact h1 x hm
        · simp only [List.mem_singleton] at hm
          subst hm
          exact parse_escape_basic he
    | Char =>
      simp only [parseLoop] at h
      split_ifs at h with hc1 hc2 hc3 hc4 hc5 hc6 hc7 hc8 hc9
      · cases hp : parse_plus_star_question seq PSQ.Plus i with
        | error e => rw [hp] at h; cases h
        | ok seq2 =>
          rw [hp] at h
          exact ih _ _ _ _ _ _ _ _ h (ppsq_basic hp h1) h2 h3
      · cases hp : parse_plus_star_question seq PSQ.Star i with
        | error e => rw [hp] at h; cases h
        | ok seq2 =>
          rw [hp] at h
          exact ih _ _ _ _ _ _ _ _ h (ppsq_basic hp h1) h2 h3
      · cases hp : parse_plus_star_question seq PSQ.Question i with
        | error e => rw [hp] at h; cases h
        | ok seq2 =>
          rw [hp] at h
          exact ih _ _ _ _ _ _ _ _ h (ppsq_basic hp h1) h2 h3
      · refine ih _ _ _ _ _ _ _ _ h ?_ ?_ ?_
        · intro x hx; cases hx
        · intro x hx; cases hx
        · intro p hp
          rcases List.mem_cons.mp hp with rfl | hm
          · exact ⟨h1, h2⟩
          · exact h3 p hm
      · cases stack with
        | nil => cases h
        | cons p stack2 =>
          obtain ⟨prev, prev_or⟩ := p
          dsimp only at h
          have hpb := h3 (prev, prev_or) (by simp)
          refine ih _ _ _ _ _ _ _ _ h (fold_push_basic hpb.1 h2) hpb.2 ?_
          intro q hq
          exact h3 q (by simp [hq])
      · cases stack with
        | nil => cases h
        | cons p stack2 =>
          obtain ⟨prev, prev_or⟩ := p
          dsimp only at h
          have hpb := h3 (prev, prev_or) (by simp)
          refine ih _ _ _ _ _ _ _ _ h
            (fold_push_basic hpb.1 (append_seq_basic h1 h2)) hpb.2 ?_
          intro q hq
          exact h3 q (by simp [hq])
      · exact ih _ _ _ _ _ _ _ _ h (by intro x hx; cases hx) (append_seq_basic h1 h2) h3
      · exact ih _ _ _ _ _ _ _ _ h h1 h2 h3
      · refine ih _ _ _ _ _ _ _ _ h ?_ h2 h3
        intro x hx
        rcases List.mem_append.mp hx with hm | hm
        · exact h1 x hm
        · simp only [List.mem_singleton] at hm
          subst hm
          simp [ast_basic]

/-- A successfully parsed AST is built from the basic node kinds only. -/
theorem parse_basic {cs : List Char} {a : AST} (h : parse cs = Except.ok a) :
    ast_basic a = true := by
  unfold parse at h
  cases hp : parseLoop cs 0 [] [] [] ParseState.Char with
  | error e => rw [hp] at h; cases h
  | ok t =>
    obtain ⟨s, so, stk⟩ := t
    rw [hp] at h
    dsimp only at h
    obtain ⟨hs, hso, _⟩ := parseLoop_basic cs 0 [] [] [] ParseState.Char s so stk hp
      (by intro x hx; cases hx) (by intro x hx; cases hx) (by intro x hx; cases hx)
    by_cases hst : stk.isEmpty = true
    · rw [if_neg (by simp [hst])] at h
      have hso2 : all_basic (if s.isEmpty then so else so ++ [AST.Seq s]) :=
        seq_push_basic hs hso
      cases hf : fold_or (if s.isEmpty then so else so ++ [AST.Seq s]) with
      | none => rw [hf] at h; cases h
      | some ast =>
        rw [hf] at h
        rw [Except.ok.injEq] at h
        subst h
        exact fold_or_basic hf hso2
    · rw [if_pos (by simpa using hst)] at h
      cases h

/-! ## Claims -/

/-- C1: the claim says the `Dot` instruction checks that `sp` is in
bounds and fails the branch (returns `false`) at end of input.  The code
does not: `eval_depth`'s `Dot` arm advances `pc` and `sp` unconditionally
(`src/engine/evaluator.rs`), so the program `[Dot, Match]` on empty input
returns `Ok(true)` where the claim requires `Ok(false)`; the `Char` arm,
by contrast, does apply the bounds discipline the claim describes. -/
theorem claim_C1_dot_unchecked :
    eval_depth [Instruction.Dot, Instruction.Match] [] 0 0 0 2 =
        some (Except.ok true) ∧
      eval_depth [Instruction.Char 'a', Instruction.Match] [] 0 0 0 2 =
        some (Except.ok false) :=
  ⟨rfl, rfl⟩

/-- C2: matching is anchored at offset 0 with prefix semantics:
`do_matching "abc" "abcdef"` is `Ok(true)` (trailing input ignored) and
`do_matching "abc" "xabc"` is `Ok(false)` (no substring search). -/
theorem claim_C2_anchored_matching :
    do_matching ['a', 'b', 'c'] ['a', 'b', 'c', 'd', 'e', 'f'] true 20 =
        some (Except.ok true) ∧
      do_matching ['a', 'b', 'c'] ['x', 'a', 'b', 'c'] true 20 =
        some (Except.ok false) :=
  ⟨rfl, rfl⟩

/-- C3: every successfully compiled program ends in exactly one `Match`
(`Match` occurs nowhere else) and every `Jump`/`Split` address is a valid
index (strictly less than the program length). -/
theorem claim_C3_code_wf (ast : AST) (fuel : Nat) (code : List Instruction)
    (h : get_code ast fuel = some (Except.ok code)) :
    (∃ pre, code = pre ++ [Instruction.Match] ∧ Instruction.Match ∉ pre) ∧
      ∀ i ∈ code, addr_lt code.length i :=
  get_code_wf ast fuel code h

/-- Witness for C3 at the concrete expression `a`, whose compiled program
is `[Char a, Match]`. -/
theorem claim_C3_code_wf_witness :
    (∃ pre, [Instruction.Char 'a', Instruction.Match] = pre ++ [Instruction.Match] ∧
        Instruction.Match ∉ pre) ∧
      ∀ i ∈ [Instruction.Char 'a', Instruction.Match],
        addr_lt [Instruction.Char 'a', Instruction.Match].length i :=
  claim_C3_code_wf (AST.Char 'a') 10 [Instruction.Char 'a', Instruction.Match] rfl

/-- C4: quantifier semantics at the public entry point: `(abc)*` matches
`abcabc` and the empty string (zero repetitions allowed); `(ab|cd)+`
matches `abcdcd` but not the empty string (at least one repetition). -/
theorem claim_C4_quantifiers :
    do_matching ['(', 'a', 'b', 'c', ')', '*'] ['a', 'b', 'c', 'a', 'b', 'c'] true 20 =
        some (Except.ok true) ∧
      do_matching ['(', 'a', 'b', 'c', ')', '*'] [] true 20 = some (Except.ok true) ∧
      do_matching ['(', 'a', 'b', '|', 'c', 'd', ')', '+'] ['a', 'b', 'c', 'd', 'c', 'd']
          true 20 = some (Except.ok true) ∧
      do_matching ['(', 'a', 'b', '|', 'c', 'd', ')', '+'] [] true 20 =
        some (Except.ok false) :=
  ⟨rfl, rfl, rfl, rfl⟩

/-- C5 counterexample: the claim says the evaluator's errors are exactly
the three conditions `PCOverflow`, `SPOverflow`, `InvalidPC`; but the
evaluator also returns the fourth condition `NotSupport` — here a `Caret`
instruction executed at `pc = 1` — which is none of the three. -/
theorem claim_C5_counterexample :
    eval_depth [Instruction.Char 'a', Instruction.Caret] ['a'] 0 0 0 3 =
        some (Except.error EvalError.NotSupport) ∧
      (EvalError.NotSupport ≠ EvalError.PCOverFlow ∧
        EvalError.NotSupport ≠ EvalError.SPOverFlow ∧
        EvalError.NotSupport ≠ EvalError.InvalidPC) :=
  ⟨rfl, by decide⟩

/-- C5 as amended: the evaluator's error conditions form a closed set of
exactly four tagged conditions — `PCOverFlow`, `SPOverFlow`, `InvalidPC`
and `NotSupport` (the last raised when `Caret` executes at `pc ≠ 0`). -/
theorem claim_C5_amended (inst : List Instruction) (line : List Char)
    (pc sp index fuel : Nat) (e : EvalError)
    (h : eval_depth inst line pc sp index fuel = some (Except.error e)) :
    e = EvalError.PCOverFlow ∨ e = EvalError.SPOverFlow ∨ e = EvalError.InvalidPC ∨
      e = EvalError.NotSupport := by
  cases e
  · exact Or.inl rfl
  · exact Or.inr (Or.inl rfl)
  · exact Or.inr (Or.inr (Or.inr rfl))
  · exact Or.inr (Or.inr (Or.inl rfl))

/-- Witness for the amended C5: the empty program raises `InvalidPC`. -/
theorem claim_C5_amended_witness :
    EvalError.InvalidPC = EvalError.PCOverFlow ∨
      EvalError.InvalidPC = EvalError.SPOverFlow ∨
      EvalError.InvalidPC = EvalError.InvalidPC ∨
      EvalError.InvalidPC = EvalError.NotSupport :=
  claim_C5_amended [] [] 0 0 0 1 EvalError.InvalidPC rfl

/-- C6 counterexample: the claim says selecting the unimplemented
(non-depth-first) strategy returns an explicit error; the code instead
returns the negative match result `Ok(false)` (the `eval` wrapper's else
branch), never an error. -/
theorem claim_C6_counterexample :
    eval [Instruction.Match] [] 0 false 5 = some (Except.ok false) ∧
      ∀ e : EvalError, eval [Instruction.Match] [] 0 false 5 ≠
        some (Except.error e) := by
  refine ⟨rfl, ?_⟩
  intro e h
  simp [eval] at h

/-- C6 as amended: for every instruction sequence and input, invoking the
evaluator with the flag selecting the unimplemented strategy silently
returns `Ok(false)`, masking the missing implementation as a negative
match result. -/
theorem claim_C6_amended (inst : List Instruction) (line : List Char)
    (index fuel : Nat) : eval inst line index false fuel = some (Except.ok false) :=
  rfl

/-- C7: the parser's fold rule: zero branches yield `none` (turned into
the `Empty` error by `parse` at top level, e.g. on the empty expression),
and a non-empty branch list `b1..bn` folds to the right-nested
alternation `Or(b1, Or(b2, …, bn))` (`right_nested_or`), which returns a
single branch unchanged. -/
theorem claim_C7_fold_rule :
    fold_or [] = none ∧
      (∀ (b : AST) (bs : List AST), fold_or (b :: bs) = some (right_nested_or b bs)) ∧
      parse [] = Except.error ParseError.Empty :=
  ⟨rfl, fold_or_eq_right_nested, rfl⟩

/-- C8: executing a `Split(addr1, addr2)` instruction first evaluates
from `(addr1, sp)`; a `true` result short-circuits (and an error
propagates) without exploring `addr2`; only a `false` result continues
from `(addr2, sp)`, whose result is returned — first-in-program-order
precedence. -/
theorem claim_C8_split_order (inst : List Instruction) (line : List Char)
    (pc sp index fuel a1 a2 : Nat)
    (h : inst.get? pc = some (Instruction.Split a1 a2)) :
    eval_depth inst line pc sp index (fuel + 1) =
      match eval_depth inst line a1 sp index fuel with
      | none => none
      | some (Except.error e) => some (Except.error e)
      | some (Except.ok true) => some (Except.ok true)
      | some (Except.ok false) => eval_depth inst line a2 sp index fuel := by
  conv_lhs => rw [eval_depth]
  rw [h]

/-- Witness for C8 on the program `[Split 1 1, Match]`. -/
theorem claim_C8_split_order_witness :
    eval_depth [Instruction.Split 1 1, Instruction.Match] [] 0 0 0 2 =
      match eval_depth [Instruction.Split 1 1, Instruction.Match] [] 1 0 0 1 with
      | none => none
      | some (Except.error e) => some (Except.error e)
      | some (Except.ok true) => some (Except.ok true)
      | some (Except.ok false) =>
        eval_depth [Instruction.Split 1 1, Instruction.Match] [] 1 0 0 1 :=
  claim_C8_split_order [Instruction.Split 1 1, Instruction.Match] [] 0 0 0 1 1 1 rfl

/-- C9: a quantifier or alternation bar with an empty concatenation
buffer is rejected with `NoPrev` at the offending position: `+b`, `*b`,
`|b`, `?b` all fail with `NoPrev 0`. -/
theorem claim_C9_noprev :
    parse ['+', 'b'] = Except.error (ParseError.NoPrev 0) ∧
      parse ['*', 'b'] = Except.error (ParseError.NoPrev 0) ∧
      parse ['|', 'b'] = Except.error (ParseError.NoPrev 0) ∧
      parse ['?', 'b'] = Except.error (ParseError.NoPrev 0) :=
  ⟨rfl, rfl, rfl, rfl⟩

/-- C10: every successfully parsed AST uses only the `Char`, `Plus`,
`Star`, `Question`, `Or`, `Seq` node kinds (never `Dot`, `Caret`,
`Dollar`: unescaped `.`, `^`, `$` are ordinary literals), and
consequently the pattern `.` matches exactly the single character `.`
through the public match entry point. -/
theorem claim_C10_no_metachar_nodes :
    (∀ (cs : List Char) (a : AST), parse cs = Except.ok a → ast_basic a = true) ∧
      ∀ c : Char, do_matching ['.'] [c] true 10 = some (Except.ok (c == '.')) := by
  refine ⟨fun cs a h => parse_basic h, ?_⟩
  intro c
  have hp : parse ['.'] = Except.ok (AST.Seq [AST.Char '.']) := rfl
  have hc : get_code (AST.Seq [AST.Char '.']) 10 =
      some (Except.ok [Instruction.Char '.', Instruction.Match]) := rfl
  by_cases hcc : c = '.'
  · subst hcc
    have he : eval [Instruction.Char '.', Instruction.Match] ['.'] 0 true 10 =
        some (Except.ok true) := by
      simp [eval, eval_depth, safe_add, USIZE_MAX]
    simp [do_matching, hp, hc, he]
  · have h2 : ('.' : Char) ≠ c := fun h => hcc h.symm
    have he : eval [Instruction.Char '.', Instruction.Match] [c] 0 true 10 =
        some (Except.ok false) := by
      simp [eval, eval_depth, h2]
    simp [do_matching, hp, hc, he, hcc]

/-- Witness for C10: the parse of `a` yields a basic AST. -/
theorem claim_C10_no_metachar_nodes_witness :
    ast_basic (AST.Seq [AST.Char 'a']) = true :=
  claim_C10_no_metachar_nodes.1 ['a'] (AST.Seq [AST.Char 'a']) rfl

end RegexEngine
